import Mathlib

/-!
Verification of the stemtool strain-mapping pipeline (`stemtool/nbed/nbed_strain.py`)
and the Fourier sub-pixel registration engine (`stemtools/util/fourier_reg.py`).

The numerical code is shallowly embedded:
* 2×2 float matrices become rational `M2` values;
* NumPy NaN propagation becomes `Option` (a `none` models a NaN entry);
* external collaborators that live outside the two source files
  (`st.util.fit_gaussian2D_mask`, the FFT primitives' floating point
  realisation) are passed in as explicit oracle parameters, exactly as the
  specification lists them as out-of-scope collaborators;
* the Fourier engine is embedded over `ℂ` with exact discrete Fourier
  transforms in place of the floating-point FFT calls.
-/

namespace Stemtool

/-- A 2×2 matrix of rationals, row major: `xx xy / yx yy`.
Embeds the `(2,2)`-shaped float arrays of `nbed_strain.py`. -/
structure M2 where
  xx : ℚ
  xy : ℚ
  yx : ℚ
  yy : ℚ
deriving DecidableEq, Repr

/-- Matrix product of two `M2`, embedding `np.matmul` on `(2,2)` arrays. -/
def mul2 (a b : M2) : M2 :=
  ⟨a.xx * b.xx + a.xy * b.yx, a.xx * b.xy + a.xy * b.yy,
   a.yx * b.xx + a.yy * b.yx, a.yx * b.xy + a.yy * b.yy⟩

/-- Entrywise difference, embedding `-` on `(2,2)` arrays. -/
def sub2 (a b : M2) : M2 :=
  ⟨a.xx - b.xx, a.xy - b.xy, a.yx - b.yx, a.yy - b.yy⟩

/-- The identity matrix `np.eye(2)`. -/
def id2 : M2 := ⟨1, 0, 0, 1⟩

/-- Determinant of a 2×2 matrix. -/
def det2 (a : M2) : ℚ := a.xx * a.yy - a.xy * a.yx

/-- Matrix inverse, embedding `np.linalg.inv` on a 2×2 array.  `np.linalg.inv`
raises on a singular matrix; since every claim only evaluates it on invertible
matrices we return the zero matrix in the singular case to stay total. -/
def inv2 (a : M2) : M2 :=
  if det2 a = 0 then ⟨0, 0, 0, 0⟩
  else ⟨a.yy / det2 a, -a.xy / det2 a, -a.yx / det2 a, a.xx / det2 a⟩

/-- A row vector times an `M2` (used for `np.matmul(diff_spots, lcbed)`). -/
def rowMul2 (v : ℚ × ℚ) (m : M2) : ℚ × ℚ :=
  (v.1 * m.xx + v.2 * m.yx, v.1 * m.xy + v.2 * m.yy)

/-- Gram matrix `Aᵀ·A` of an `(n,2)` array whose rows are given as a list. -/
def gram2 (a : List (ℚ × ℚ)) : M2 :=
  a.foldr (fun r m => ⟨m.xx + r.1 * r.1, m.xy + r.1 * r.2,
                       m.yx + r.2 * r.1, m.yy + r.2 * r.2⟩) ⟨0, 0, 0, 0⟩

/-- The product `Aᵀ·B` of two `(n,2)` arrays given as lists of rows. -/
def cross2 (a b : List (ℚ × ℚ)) : M2 :=
  (a.zip b).foldr (fun r m => ⟨m.xx + r.1.1 * r.2.1, m.xy + r.1.1 * r.2.2,
                               m.yx + r.1.2 * r.2.1, m.yy + r.1.2 * r.2.2⟩) ⟨0, 0, 0, 0⟩

/-- Least squares solution of the overdetermined system `A · X = B`, where the
rows of the `(n,2)` arrays `A` and `B` are given as lists of pairs.  Embeds
`np.linalg.lstsq(A, B, rcond=None)` through the normal equations
`X = (Aᵀ·A)⁻¹ · Aᵀ · B`, which agrees with `lstsq` whenever `A` has full
column rank (the only case any claim evaluates). -/
def lstsq2 (a b : List (ℚ × ℚ)) : M2 :=
  mul2 (inv2 (gram2 a)) (cross2 a b)

/-!  ## Strain tensor decomposition

`strain_in_ROI` (nbed_strain.py lines 646-653) turns the fitted lattice axes of
a scan point into strain components once the reference axes have been
inverted.  `strain_log` (702-705) and `strain_oldstyle` (734-739) emit the
identical formula.  `strain4D_general` (1097-1103) uses a different recipe,
embedded separately below. -/

/-- Strain components emitted by `strain_in_ROI` for one scan point
(nbed_strain.py lines 648-653): with `t = pattern_axes · inverse_axes` and
`s = t − I`, it writes `e_xx = −s₀₀`, `e_xy = −(s₀₁+s₁₀)`,
`e_theta = s₀₁−s₁₀`, `e_yy = −s₁₁`.  The tuple is ordered
`(e_xx, e_xy, e_theta, e_yy)` as in the source. -/
def strainInROIComps (patternAxes inverseAxes : M2) : ℚ × ℚ × ℚ × ℚ :=
  let t := mul2 patternAxes inverseAxes
  let s := sub2 t id2
  (-s.xx, -(s.xy + s.yx), s.xy - s.yx, -s.yy)

/-- Reference strain definition, written from the specification's words
(spec §4.4): `T = observedBasis · inverse(referenceBasis)`, `S = T − I`,
`e_xx = −S[0,0]`, `e_yy = −S[1,1]`, `e_xy = −(S[0,1]+S[1,0])`,
`e_theta = S[0,1]−S[1,0]`.  Tuple ordered `(e_xx, e_xy, e_theta, e_yy)`. -/
def specStrainFrom (observedBasis referenceBasis : M2) : ℚ × ℚ × ℚ × ℚ :=
  let t := mul2 observedBasis (inv2 referenceBasis)
  let s := sub2 t id2
  (-s.xx, -(s.xy + s.yx), s.xy - s.yx, -s.yy)

/-- Strain components emitted by `strain4D_general` for one scan point
(nbed_strain.py lines 1097-1103): `scan_strain` is the least squares solution
of `peaks_mean · X = peaks_scan`, rotated by `rotmatrix` (the rotation matrix
built from `rotangle`, the identity for the default `rotangle = 0`), then
`scan_strain = scan_strain − I` and the function writes `e_xx = s₀₀`,
`e_xy = (s₀₁+s₁₀)/2`, `e_theta = (s₀₁−s₁₀)/2`, `e_yy = s₁₁`.
Tuple ordered `(e_xx, e_xy, e_theta, e_yy)`. -/
def strain4DComps (peaksMean peaksScan : List (ℚ × ℚ)) (rotmatrix : M2) :
    ℚ × ℚ × ℚ × ℚ :=
  let t := mul2 (lstsq2 peaksMean peaksScan) rotmatrix
  let s := sub2 t id2
  (s.xx, (s.xy + s.yx) / 2, (s.xy - s.yx) / 2, s.yy)

/-- The inverse formula for `inv2` really inverts: `a · a⁻¹ = I` whenever the
determinant is nonzero. -/
theorem mul2_inv2 (a : M2) (h : det2 a ≠ 0) : mul2 a (inv2 a) = id2 := by
  obtain ⟨axx, axy, ayx, ayy⟩ := a
  simp only [mul2, inv2, id2, det2] at *
  rw [if_neg h]
  simp only [M2.mk.injEq]
  refine ⟨?_, ?_, ?_, ?_⟩ <;> field_simp <;> ring

/-!  ## Disk fitting (`fit_nbed_disks`, nbed_strain.py lines 405-514)

The correlation image is a rational-valued `H × W` grid addressed with natural
row/column indices (row major, as `np.mgrid` produces).  NaN positions are
modelled as `none`.  The nonlinear 2D-Gaussian fit `st.util.fit_gaussian2D_mask`
lives outside the two source files and is listed by the specification as an
external collaborator; it enters the embedding as the oracle `gaussFit`,
giving the fitted sub-pixel centre `(x, y)` for the disk at list index `ii`. -/

/-- Embeds `np.amax` on a nonempty list (junk value `0` on the empty list,
where NumPy raises). -/
def amax : List ℚ → ℚ
  | [] => 0
  | x :: xs => xs.foldl max x

/-- Embeds `np.median`: sort, take the middle element (odd length) or the mean
of the two middle elements (even length); junk value `0` on the empty list,
where NumPy yields NaN. -/
def median (l : List ℚ) : ℚ :=
  let s := l.insertionSort (· ≤ ·)
  if s.length % 2 = 1 then s.getD (s.length / 2) 0
  else (s.getD (s.length / 2 - 1) 0 + s.getD (s.length / 2) 0) / 2

/-- The pixel values of `corr_image[reg]` where
`reg = ((yy−posy)² + (xx−posx)²) ≤ disk_size²` (nbed_strain.py line 460),
listed in NumPy's row-major boolean-mask order. -/
def regionVals (H W : ℕ) (img : ℕ → ℕ → ℚ) (diskSize posx posy : ℚ) :
    List ℚ :=
  (List.range H).flatMap fun (y : ℕ) =>
    (List.range W).filterMap fun (x : ℕ) =>
      if ((y : ℚ) - posy) ^ 2 + ((x : ℚ) - posx) ^ 2 ≤ diskSize ^ 2
      then some (img y x) else none

/-- One iteration of the fitting loop (nbed_strain.py lines 457-466): the
contrast test `amax/median < 1 + nan_cutoff` marks the disk unfit (`none`,
NaN in the source) and otherwise the 2D Gaussian fit result is taken. -/
def diskStep (H W : ℕ) (img : ℕ → ℕ → ℚ) (diskSize nanCutoff : ℚ)
    (p : ℚ × ℚ) (fitRes : ℚ × ℚ) : Option (ℚ × ℚ) :=
  let vals := regionVals H W img diskSize p.1 p.2
  if amax vals / median vals < 1 + nanCutoff then none else some fitRes

/-- The `fitted_disk_list` produced by the loop of nbed_strain.py lines
457-466, one `Option` entry per initial guess position `(posx, posy)`. -/
def fitPhase1 (H W : ℕ) (img : ℕ → ℕ → ℚ) (diskSize : ℚ)
    (positions : List (ℚ × ℚ)) (nanCutoff : ℚ) (gaussFit : ℕ → ℚ × ℚ) :
    List (Option (ℚ × ℚ)) :=
  positions.enum.map fun ip =>
    diskStep H W img diskSize nanCutoff ip.2 (gaussFit ip.1)

/-- The `nancount` of nbed_strain.py line 467: the number of NaN rows of
`fitted_disk_list`. -/
def countNone (l : List (Option (ℚ × ℚ))) : ℕ := l.countP fun o => o.isNone

/-- Embeds the simultaneous masking
`diff_spots[~isnan], fitted_disk_list[~isnan]` of nbed_strain.py lines
473-478: the (Miller index, fitted position) rows that survived fitting. -/
def keptPairs (spots : List (ℚ × ℚ)) (fitted : List (Option (ℚ × ℚ))) :
    List ((ℚ × ℚ) × (ℚ × ℚ)) :=
  (spots.zip fitted).filterMap fun sf => sf.2.map fun v => (sf.1, v)

/-- The surviving Miller-index rows (`diff_spots` after masking). -/
def keptSpots (spots : List (ℚ × ℚ)) (fitted : List (Option (ℚ × ℚ))) :
    List (ℚ × ℚ) :=
  (keptPairs spots fitted).map (·.1)

/-- The `disk_locations` array of nbed_strain.py lines 479-480: surviving
fitted positions with the y (second) coordinate negated. -/
def keptLocs (spots : List (ℚ × ℚ)) (fitted : List (Option (ℚ × ℚ))) :
    List (ℚ × ℚ) :=
  (keptPairs spots fitted).map fun sv => (sv.2.1, -sv.2.2)

/-- The centre lookup of nbed_strain.py lines 481-483: the first
`disk_locations` row whose Miller index is `(0, 0)`, paired with that index. -/
def centerSearch (spots : List (ℚ × ℚ)) (fitted : List (Option (ℚ × ℚ))) :
    Option ((ℚ × ℚ) × (ℚ × ℚ)) :=
  ((keptSpots spots fitted).zip (keptLocs spots fitted)).find? fun sl =>
    decide (sl.1 = (0, 0))

/-- Population variance of a list, i.e. the square of `np.std` (junk value `0`
on the empty list, where NumPy yields NaN).  The embedding carries `np.std`
through its square because the square root of a rational is not rational; a
component is zero, finite, or NaN exactly when the standard deviation is. -/
def varOf (l : List ℚ) : ℚ :=
  if l.length = 0 then 0
  else (l.map fun v => v ^ 2).sum / l.length - (l.sum / l.length) ^ 2

/-- The `np.std(np.divide(locs[calc ≠ 0], calc[calc ≠ 0]))` computation of
nbed_strain.py lines 494-505 (represented by its square, see `varOf`). -/
def stdRatiosVar (locs calcs : List ℚ) : ℚ :=
  varOf (((locs.zip calcs).filter fun lc => decide (lc.2 ≠ 0)).map
    fun lc => lc.1 / lc.2)

/-- Full embedding of `fit_nbed_disks` (nbed_strain.py lines 405-514).
Returns `(fitted_disk_list, center_position, fit_deviation, lcbed)` with NaN
results modelled as `none` (and `fit_deviation` represented through its
square, see `varOf`).  In the branch where some disk fit, the returned
`fitted_disk_list` is the masked (all-finite) list, exactly as the source
reassigns it at line 476. -/
def fitNbedDisks (H W : ℕ) (img : ℕ → ℕ → ℚ) (diskSize : ℚ)
    (positions spots : List (ℚ × ℚ)) (nanCutoff : ℚ) (gaussFit : ℕ → ℚ × ℚ) :
    List (Option (ℚ × ℚ)) × Option (ℚ × ℚ) × Option (ℚ × ℚ) × Option M2 :=
  let fitted := fitPhase1 H W img diskSize positions nanCutoff gaussFit
  let noPos := positions.length
  let nancount := countNone fitted
  if nancount = noPos then (fitted, none, none, none)
  else
    let spots2 := keptSpots spots fitted
    let locs := keptLocs spots fitted
    match centerSearch spots fitted with
    | some c =>
        let cx := c.2.1
        let cy := c.2.2
        let centerPos := some (cx, -cy)
        if 2 * nancount < noPos then
          let locsT := locs.map fun v => (v.1 - cx, v.2 - cy)
          let lcbed := lstsq2 spots2 locsT
          let calcPts := spots2.map fun s => rowMul2 s lcbed
          let stdx := stdRatiosVar (locsT.map (·.1)) (calcPts.map (·.1))
          let stdy := stdRatiosVar (locsT.map (·.2)) (calcPts.map (·.2))
          ((keptPairs spots fitted).map fun sv => some sv.2, centerPos,
            some (stdx, stdy), some lcbed)
        else
          ((keptPairs spots fitted).map fun sv => some sv.2, centerPos,
            none, none)
    | none => ((keptPairs spots fitted).map fun sv => some sv.2, none,
        none, none)

/-- Seed of a left max-fold bounds the fold from below. -/
theorem le_foldl_max (xs : List ℚ) (b : ℚ) : b ≤ xs.foldl max b := by
  induction xs generalizing b with
  | nil => simp
  | cons x xs ih => exact le_trans (le_max_left b x) (ih (max b x))

/-- Every list element bounds a left max-fold from below. -/
theorem mem_le_foldl_max (xs : List ℚ) (b : ℚ) {a : ℚ} (h : a ∈ xs) :
    a ≤ xs.foldl max b := by
  induction xs generalizing b with
  | nil => cases h
  | cons x xs ih =>
      rcases List.mem_cons.mp h with rfl | hm
      · exact le_trans (le_max_right b a) (le_foldl_max xs (max b a))
      · exact ih (max b x) hm

/-- Every element of a list is at most its `amax`. -/
theorem le_amax {l : List ℚ} {a : ℚ} (h : a ∈ l) : a ≤ amax l := by
  cases l with
  | nil => cases h
  | cons x xs =>
      rcases List.mem_cons.mp h with rfl | hm
      · exact le_foldl_max xs a
      · exact mem_le_foldl_max xs x hm

/-- The median of a nonempty list is the mean of two of its elements. -/
theorem median_avg_of_mem (l : List ℚ) (h : l ≠ []) :
    ∃ a ∈ l, ∃ b ∈ l, median l = (a + b) / 2 := by
  simp only [median]
  have hperm : List.Perm (l.insertionSort (· ≤ ·)) l :=
    l.perm_insertionSort (· ≤ ·)
  generalize hg : l.insertionSort (· ≤ ·) = s at hperm ⊢
  have hlen : s.length = l.length := hperm.length_eq
  have hne : s.length ≠ 0 := by
    rw [hlen]
    have := List.length_pos.mpr h
    omega
  have hmem : ∀ i, i < s.length → s.getD i 0 ∈ l := by
    intro i hi
    rw [List.getD_eq_getElem _ 0 hi]
    exact hperm.mem_iff.mp (List.getElem_mem hi)
  by_cases hodd : s.length % 2 = 1
  · rw [if_pos hodd]
    exact ⟨s.getD (s.length / 2) 0, hmem _ (by omega),
      s.getD (s.length / 2) 0, hmem _ (by omega), by ring⟩
  · rw [if_neg hodd]
    exact ⟨s.getD (s.length / 2 - 1) 0, hmem _ (by omega),
      s.getD (s.length / 2) 0, hmem _ (by omega), rfl⟩

/-- The median of a nonempty list never exceeds its maximum. -/
theorem median_le_amax (l : List ℚ) (h : l ≠ []) : median l ≤ amax l := by
  obtain ⟨a, ha, b, hb, he⟩ := median_avg_of_mem l h
  have h1 := le_amax ha
  have h2 := le_amax hb
  rw [he]
  linarith

/-- The median of a nonempty list of positive values is positive. -/
theorem median_pos (l : List ℚ) (h : l ≠ []) (hp : ∀ v ∈ l, 0 < v) :
    0 < median l := by
  obtain ⟨a, ha, b, hb, he⟩ := median_avg_of_mem l h
  have h1 := hp a ha
  have h2 := hp b hb
  rw [he]
  linarith

/-- The entry of `fitted_disk_list` for the disk at index `i` is the fitting
step applied to the i-th initial guess. -/
theorem fitPhase1_getD (H W : ℕ) (img : ℕ → ℕ → ℚ) (diskSize : ℚ)
    (positions : List (ℚ × ℚ)) (nanCutoff : ℚ) (gaussFit : ℕ → ℚ × ℚ)
    (i : ℕ) (h : i < positions.length) :
    (fitPhase1 H W img diskSize positions nanCutoff gaussFit).getD i none =
      diskStep H W img diskSize nanCutoff (positions.getD i (0, 0))
        (gaussFit i) := by
  have hlen : (fitPhase1 H W img diskSize positions nanCutoff gaussFit).length =
      positions.length := by
    simp [fitPhase1]
  rw [List.getD_eq_getElem _ _ (by omega), List.getD_eq_getElem _ _ h]
  simp [fitPhase1]

/-- C5.  A disk is marked unfit (`none`, i.e. NaN, skipping the Gaussian fit)
if and only if the max/median intensity ratio inside the circular
neighbourhood of radius `diskSize` around its initial guess is strictly
below `1 + nanCutoff`.  The nonemptiness hypothesis records that NumPy would
raise on an empty neighbourhood, so the claim only speaks about nonempty
ones. -/
theorem C5_contrast_marking (H W : ℕ) (img : ℕ → ℕ → ℚ) (diskSize : ℚ)
    (positions : List (ℚ × ℚ)) (nanCutoff : ℚ) (gaussFit : ℕ → ℚ × ℚ)
    (i : ℕ) (h : i < positions.length)
    (hne : regionVals H W img diskSize (positions.getD i (0, 0)).1
      (positions.getD i (0, 0)).2 ≠ []) :
    (fitPhase1 H W img diskSize positions nanCutoff gaussFit).getD i none =
        none ↔
      amax (regionVals H W img diskSize (positions.getD i (0, 0)).1
          (positions.getD i (0, 0)).2) /
        median (regionVals H W img diskSize (positions.getD i (0, 0)).1
          (positions.getD i (0, 0)).2) < 1 + nanCutoff := by
  rw [fitPhase1_getD H W img diskSize positions nanCutoff gaussFit i h]
  by_cases hc : amax (regionVals H W img diskSize (positions.getD i (0, 0)).1
      (positions.getD i (0, 0)).2) /
    median (regionVals H W img diskSize (positions.getD i (0, 0)).1
      (positions.getD i (0, 0)).2) < 1 + nanCutoff
  · simp [diskStep, hc]
  · simp [diskStep, hc]

/-- Witness for `C5_contrast_marking` on a 1×1 correlation image of constant
value 5: the ratio is 1, the cutoff test fails, the disk is fitted. -/
theorem C5_witness :
    (0 : ℕ) < 1 ∧
      regionVals 1 1 (fun _ _ => (5 : ℚ)) 1 0 0 ≠ [] ∧
      ((fitPhase1 1 1 (fun _ _ => (5 : ℚ)) 1 [(0, 0)] 0
          (fun _ => (7, 8))).getD 0 none = none ↔
        amax (regionVals 1 1 (fun _ _ => (5 : ℚ)) 1
            (([((0 : ℚ), (0 : ℚ))]).getD 0 (0, 0)).1
            (([((0 : ℚ), (0 : ℚ))]).getD 0 (0, 0)).2) /
          median (regionVals 1 1 (fun _ _ => (5 : ℚ)) 1
            (([((0 : ℚ), (0 : ℚ))]).getD 0 (0, 0)).1
            (([((0 : ℚ), (0 : ℚ))]).getD 0 (0, 0)).2) < 1 + 0) :=
  ⟨by norm_num,
   by norm_num [regionVals, List.range_succ, List.filterMap_cons],
   C5_contrast_marking 1 1 (fun _ _ => (5 : ℚ)) 1 [(0, 0)] 0 (fun _ => (7, 8))
     0 (by norm_num) (by norm_num [regionVals, List.range_succ, List.filterMap_cons])⟩

/-- C9.  With `nan_cutoff = 0` and a strictly positive correlation map on the
disk's circular neighbourhood, the unfit branch is unreachable: the
max/median ratio of positive values is at least 1, so the disk always
proceeds to the 2D Gaussian fit (its entry is the Gaussian-fit result). -/
theorem C9_positive_region_fits (H W : ℕ) (img : ℕ → ℕ → ℚ) (diskSize : ℚ)
    (positions : List (ℚ × ℚ)) (gaussFit : ℕ → ℚ × ℚ)
    (i : ℕ) (h : i < positions.length)
    (hne : regionVals H W img diskSize (positions.getD i (0, 0)).1
      (positions.getD i (0, 0)).2 ≠ [])
    (hpos : ∀ v ∈ regionVals H W img diskSize (positions.getD i (0, 0)).1
      (positions.getD i (0, 0)).2, 0 < v) :
    (fitPhase1 H W img diskSize positions 0 gaussFit).getD i none =
      some (gaussFit i) := by
  rw [fitPhase1_getD H W img diskSize positions 0 gaussFit i h]
  have hm := median_le_amax _ hne
  have hp := median_pos _ hne hpos
  have hge : 1 ≤ amax (regionVals H W img diskSize (positions.getD i (0, 0)).1
      (positions.getD i (0, 0)).2) /
    median (regionVals H W img diskSize (positions.getD i (0, 0)).1
      (positions.getD i (0, 0)).2) := (one_le_div hp).mpr hm
  have hc : ¬ amax (regionVals H W img diskSize (positions.getD i (0, 0)).1
      (positions.getD i (0, 0)).2) /
    median (regionVals H W img diskSize (positions.getD i (0, 0)).1
      (positions.getD i (0, 0)).2) < 1 + 0 := by linarith
  simp only [diskStep]
  rw [if_neg hc]

/-- Witness for `C9_positive_region_fits` on the same 1×1 positive image. -/
theorem C9_witness :
    (0 : ℕ) < 1 ∧
      (∀ v ∈ regionVals 1 1 (fun _ _ => (5 : ℚ)) 1 0 0, 0 < v) ∧
      (fitPhase1 1 1 (fun _ _ => (5 : ℚ)) 1 [(0, 0)] 0
        (fun _ => (7, 8))).getD 0 none = some (7, 8) :=
  ⟨by norm_num,
   by norm_num [regionVals, List.range_succ, List.filterMap_cons],
   C9_positive_region_fits 1 1 (fun _ _ => (5 : ℚ)) 1 [(0, 0)] (fun _ => (7, 8))
     0 (by norm_num) (by norm_num [regionVals, List.range_succ, List.filterMap_cons])
     (by norm_num [regionVals, List.range_succ, List.filterMap_cons])⟩

/-- When every entry of a list of options is counted as `none`, every entry is
`none`. -/
theorem all_none_of_countNone (l : List (Option (ℚ × ℚ)))
    (h : countNone l = l.length) : ∀ o ∈ l, o = none := by
  intro o ho
  have := List.countP_eq_length.mp h o ho
  simpa [Option.isNone_iff_eq_none] using this

/-- C3 (amended).  Failure signalling of `fit_nbed_disks`: (a) if no disk fits
(every entry of the fitted list is NaN) then all four outputs are all-NaN;
(b) if the disk tagged with Miller index `(0,0)` is not among the fits (the
centre lookup fails) then `centerPosition`, `fitDeviation` and
`observedLatticeBasis` are NaN — but in case (b) the returned
`fittedPositions` list is the masked list of the disks that did fit, which
is not all-NaN whenever any disk fit.  No exception is raised in either
case. -/
theorem C3_amended_nan_outputs (H W : ℕ) (img : ℕ → ℕ → ℚ) (diskSize : ℚ)
    (positions spots : List (ℚ × ℚ)) (nanCutoff : ℚ) (gaussFit : ℕ → ℚ × ℚ) :
    (countNone (fitPhase1 H W img diskSize positions nanCutoff gaussFit) =
        positions.length →
      (∀ o ∈ (fitNbedDisks H W img diskSize positions spots nanCutoff
        gaussFit).1, o = none) ∧
      (fitNbedDisks H W img diskSize positions spots nanCutoff
        gaussFit).2.1 = none ∧
      (fitNbedDisks H W img diskSize positions spots nanCutoff
        gaussFit).2.2.1 = none ∧
      (fitNbedDisks H W img diskSize positions spots nanCutoff
        gaussFit).2.2.2 = none) ∧
    (centerSearch spots (fitPhase1 H W img diskSize positions nanCutoff
        gaussFit) = none →
      (fitNbedDisks H W img diskSize positions spots nanCutoff
        gaussFit).2.1 = none ∧
      (fitNbedDisks H W img diskSize positions spots nanCutoff
        gaussFit).2.2.1 = none ∧
      (fitNbedDisks H W img diskSize positions spots nanCutoff
        gaussFit).2.2.2 = none) := by
  have hlen : (fitPhase1 H W img diskSize positions nanCutoff gaussFit).length
      = positions.length := by simp [fitPhase1]
  constructor
  · intro hall
    simp only [fitNbedDisks]
    rw [if_pos hall]
    exact ⟨all_none_of_countNone
      (fitPhase1 H W img diskSize positions nanCutoff gaussFit) (by omega),
      rfl, rfl, rfl⟩
  · intro hc
    simp only [fitNbedDisks]
    by_cases hall : countNone (fitPhase1 H W img diskSize positions nanCutoff
        gaussFit) = positions.length
    · rw [if_pos hall]
      exact ⟨rfl, rfl, rfl⟩
    · rw [if_neg hall, hc]
      exact ⟨rfl, rfl, rfl⟩

/-- C3 (counterexample).  On a 1×5 correlation image that is flat around the
`(0,0)`-tagged guess but peaked around the `(1,0)`-tagged guess, the `(0,0)`
disk fails the contrast test (so `centerPosition` is NaN) and yet the
returned `fittedPositions` list `[some (3,4)]` is not all-NaN, refuting the
claim that all four outputs are all-NaN whenever the `(0,0)` disk fails. -/
theorem C3_counterexample :
    (fitNbedDisks 1 5 (fun _ x => if x = 3 then (9 : ℚ) else 1) 1
      [(1, 0), (3, 0)] [(0, 0), (1, 0)] (1 / 2) (fun _ => (3, 4))).2.1 =
        none ∧
    (fitNbedDisks 1 5 (fun _ x => if x = 3 then (9 : ℚ) else 1) 1
      [(1, 0), (3, 0)] [(0, 0), (1, 0)] (1 / 2) (fun _ => (3, 4))).1 =
        [some (3, 4)] := by
  norm_num [fitNbedDisks, fitPhase1, diskStep, regionVals, countNone,
    centerSearch, keptSpots, keptLocs, keptPairs, amax, median,
    List.range_succ, List.filterMap_cons, List.insertionSort,
    List.orderedInsert, List.enum, List.enumFrom]

/-- Witness for `C3_amended_nan_outputs` on a flat 1×3 image where the single
disk fails the contrast test, so every output is all-NaN. -/
theorem C3_witness :
    (∀ o ∈ (fitNbedDisks 1 3 (fun _ _ => (1 : ℚ)) 1 [(1, 0)] [(0, 0)]
      (1 / 2) (fun _ => (0, 0))).1, o = none) ∧
    (fitNbedDisks 1 3 (fun _ _ => (1 : ℚ)) 1 [(1, 0)] [(0, 0)] (1 / 2)
      (fun _ => (0, 0))).2.1 = none ∧
    (fitNbedDisks 1 3 (fun _ _ => (1 : ℚ)) 1 [(1, 0)] [(0, 0)] (1 / 2)
      (fun _ => (0, 0))).2.2.1 = none ∧
    (fitNbedDisks 1 3 (fun _ _ => (1 : ℚ)) 1 [(1, 0)] [(0, 0)] (1 / 2)
      (fun _ => (0, 0))).2.2.2 = none :=
  ⟨((C3_amended_nan_outputs 1 3 (fun _ _ => (1 : ℚ)) 1 [(1, 0)] [(0, 0)]
      (1 / 2) (fun _ => (0, 0))).1
    (by norm_num [fitPhase1, diskStep, regionVals, countNone, amax, median,
      List.range_succ, List.filterMap_cons, List.insertionSort,
      List.orderedInsert, List.enum, List.enumFrom])).1,
   (C3_amended_nan_outputs 1 3 (fun _ _ => (1 : ℚ)) 1 [(1, 0)] [(0, 0)]
      (1 / 2) (fun _ => (0, 0))).2
    (by norm_num [fitPhase1, diskStep, regionVals, countNone, centerSearch,
      keptSpots, keptLocs, keptPairs, amax, median, List.range_succ,
      List.filterMap_cons, List.insertionSort, List.orderedInsert,
      List.enum, List.enumFrom])⟩

/-- C4 (amended).  Whenever the `(0,0)` disk is fitted (the centre lookup
succeeds) AND fewer than half of the disks failed, `fit_nbed_disks`
translates the surviving (y-negated) positions relative to the centre and
returns the least squares solution of
`millerIndices · latticeBasis = relativePositions` as the observed basis.
The claim's clause "independent of how many other disks failed" is wrong:
when at least half of the disks fail, the basis output is NaN even though a
centre exists (see the counterexample). -/
theorem C4_amended_basis (H W : ℕ) (img : ℕ → ℕ → ℚ) (diskSize : ℚ)
    (positions spots : List (ℚ × ℚ)) (nanCutoff : ℚ) (gaussFit : ℕ → ℚ × ℚ)
    (c : (ℚ × ℚ) × (ℚ × ℚ))
    (hc : centerSearch spots (fitPhase1 H W img diskSize positions nanCutoff
      gaussFit) = some c)
    (hn : 2 * countNone (fitPhase1 H W img diskSize positions nanCutoff
      gaussFit) < positions.length) :
    (fitNbedDisks H W img diskSize positions spots nanCutoff
      gaussFit).2.2.2 =
      some (lstsq2
        (keptSpots spots (fitPhase1 H W img diskSize positions nanCutoff
          gaussFit))
        ((keptLocs spots (fitPhase1 H W img diskSize positions nanCutoff
          gaussFit)).map fun v => (v.1 - c.2.1, v.2 - c.2.2))) ∧
    (fitNbedDisks H W img diskSize positions spots nanCutoff gaussFit).2.1 =
      some (c.2.1, -c.2.2) := by
  have hne : ¬ countNone (fitPhase1 H W img diskSize positions nanCutoff
      gaussFit) = positions.length := by omega
  simp only [fitNbedDisks, hc]
  rw [if_neg hne, if_pos hn]
  exact ⟨rfl, rfl⟩

/-- C4 (counterexample).  On a 1×7 image peaked only around the
`(0,0)`-tagged guess, the centre is fitted (`centerPosition = some (1,0)`),
but two of the three disks fail, so the returned lattice basis is NaN —
refuting the claim that the basis is produced whenever a centre exists. -/
theorem C4_counterexample :
    (fitNbedDisks 1 7 (fun _ x => if x = 1 then (9 : ℚ) else 1) 1
      [(1, 0), (3, 0), (5, 0)] [(0, 0), (1, 0), (2, 0)] (1 / 2)
      (fun _ => (1, 0))).2.1 = some (1, 0) ∧
    (fitNbedDisks 1 7 (fun _ x => if x = 1 then (9 : ℚ) else 1) 1
      [(1, 0), (3, 0), (5, 0)] [(0, 0), (1, 0), (2, 0)] (1 / 2)
      (fun _ => (1, 0))).2.2.2 = none := by
  norm_num [fitNbedDisks, fitPhase1, diskStep, regionVals, countNone,
    centerSearch, keptSpots, keptLocs, keptPairs, amax, median,
    List.range_succ, List.filterMap_cons, List.insertionSort,
    List.orderedInsert, List.enum, List.enumFrom]

/-- Witness for `C4_amended_basis`: a 1×7 image peaked around both guesses,
so both disks fit, the centre exists and no disk failed. -/
theorem C4_witness :
    centerSearch [(0, 0), (1, 0)]
      (fitPhase1 1 7 (fun _ x => if x = 1 ∨ x = 5 then (9 : ℚ) else 1) 1
        [(1, 0), (5, 0)] (1 / 2) (fun i => if i = 0 then (1, 0)
          else (5, 0))) = some ((0, 0), (1, 0)) ∧
    (fitNbedDisks 1 7 (fun _ x => if x = 1 ∨ x = 5 then (9 : ℚ) else 1) 1
      [(1, 0), (5, 0)] [(0, 0), (1, 0)] (1 / 2)
      (fun i => if i = 0 then (1, 0) else (5, 0))).2.2.2 =
      some (lstsq2
        (keptSpots [(0, 0), (1, 0)]
          (fitPhase1 1 7 (fun _ x => if x = 1 ∨ x = 5 then (9 : ℚ) else 1) 1
            [(1, 0), (5, 0)] (1 / 2) (fun i => if i = 0 then (1, 0)
              else (5, 0))))
        ((keptLocs [(0, 0), (1, 0)]
          (fitPhase1 1 7 (fun _ x => if x = 1 ∨ x = 5 then (9 : ℚ) else 1) 1
            [(1, 0), (5, 0)] (1 / 2) (fun i => if i = 0 then (1, 0)
              else (5, 0)))).map fun v => (v.1 - 1, v.2 - 0))) := by
  have hc : centerSearch [(0, 0), (1, 0)]
      (fitPhase1 1 7 (fun _ x => if x = 1 ∨ x = 5 then (9 : ℚ) else 1) 1
        [(1, 0), (5, 0)] (1 / 2) (fun i => if i = 0 then (1, 0)
          else (5, 0))) = some ((0, 0), (1, 0)) := by
    norm_num [fitPhase1, diskStep, regionVals, centerSearch, keptSpots,
      keptLocs, keptPairs, amax, median, List.range_succ,
      List.filterMap_cons, List.insertionSort, List.orderedInsert,
      List.enum, List.enumFrom]
  have hn : 2 * countNone
      (fitPhase1 1 7 (fun _ x => if x = 1 ∨ x = 5 then (9 : ℚ) else 1) 1
        [(1, 0), (5, 0)] (1 / 2) (fun i => if i = 0 then (1, 0)
          else (5, 0))) < ([((1 : ℚ), (0 : ℚ)), (5, 0)]).length := by
    norm_num [fitPhase1, diskStep, regionVals, countNone, amax, median,
      List.range_succ, List.filterMap_cons, List.insertionSort,
      List.orderedInsert, List.enum, List.enumFrom]
  exact ⟨hc, (C4_amended_basis 1 7 (fun _ x => if x = 1 ∨ x = 5 then (9 : ℚ)
    else 1) 1 [(1, 0), (5, 0)] [(0, 0), (1, 0)] (1 / 2)
    (fun i => if i = 0 then (1, 0) else (5, 0)) ((0, 0), (1, 0)) hc hn).1⟩

/-- C1 (counterexample).  The claim asserts that every strain-map entry point
emits the reference formula `e_xx = −S[0,0]`, … .  `strain4D_general` does
not: at the scan point whose reference peaks are the unit rows `(1,0),(0,1)`
(reference basis `I`) and whose observed peaks are `(51/50,0),(0,1)`
(observed basis `diag(51/50,1)`), with the default `rotangle = 0`
(`rotmatrix = I`), the code emits `e_xx = 1/50` while the reference
definition demands `e_xx = −1/50`. -/
theorem C1_counterexample :
    strain4DComps [(1, 0), (0, 1)] [(51 / 50, 0), (0, 1)] id2 ≠
      specStrainFrom ⟨51 / 50, 0, 0, 1⟩ ⟨1, 0, 0, 1⟩ := by
  norm_num [strain4DComps, specStrainFrom, lstsq2, gram2, cross2, inv2, mul2,
    sub2, id2, det2]

/-- C1 (amended).  The reference strain definition of the specification holds
for the `strain_in_ROI` assembler entry point (and the identical code in
`strain_log` and `strain_oldstyle`): for every observed basis and every
invertible reference basis, the components written at lines 648-653 agree
with `T = observedBasis · inverse(referenceBasis)`, `S = T − I`,
`e_xx = −S[0,0]`, `e_yy = −S[1,1]`, `e_xy = −(S[0,1]+S[1,0])`,
`e_theta = S[0,1]−S[1,0]`.  `strain4D_general` instead emits
`e_xx = S[0,0]`, `e_yy = S[1,1]`, `e_xy = (S[0,1]+S[1,0])/2`,
`e_theta = (S[0,1]−S[1,0])/2` for `T` solving
`referencePeaks · T = observedPeaks` (then rotated by `rotmatrix`). -/
theorem C1_amended_strain_formula (observed reference : M2)
    (h : det2 reference ≠ 0) :
    strainInROIComps observed (inv2 reference) =
      specStrainFrom observed reference := rfl

/-- Witness for `C1_amended_strain_formula` at a concrete invertible basis. -/
theorem C1_witness :
    det2 ⟨2, 0, 1, 1⟩ ≠ 0 ∧
      strainInROIComps ⟨1, 2, 3, 4⟩ (inv2 ⟨2, 0, 1, 1⟩) =
        specStrainFrom ⟨1, 2, 3, 4⟩ ⟨2, 0, 1, 1⟩ :=
  ⟨by norm_num [det2], C1_amended_strain_formula ⟨1, 2, 3, 4⟩ ⟨2, 0, 1, 1⟩
    (by norm_num [det2])⟩

/-- C2.  Round-trip identity of the strain computation: for every invertible
2×2 basis `B`, computing the strain of observed basis `B` against reference
basis `B` (that is, running the `strain_in_ROI` formula with
`inverse_axes = inv(B)` and `pattern_axes = B`) yields exactly zero for all
four components `e_xx, e_xy, e_theta, e_yy`. -/
theorem C2_strain_roundtrip (B : M2) (h : det2 B ≠ 0) :
    strainInROIComps B (inv2 B) = (0, 0, 0, 0) := by
  unfold strainInROIComps
  rw [mul2_inv2 B h]
  norm_num [sub2, id2]

/-- Witness for `C2_strain_roundtrip` at a concrete invertible basis. -/
theorem C2_witness :
    det2 ⟨2, 1, 1, 1⟩ ≠ 0 ∧
      strainInROIComps ⟨2, 1, 1, 1⟩ (inv2 ⟨2, 1, 1, 1⟩) = (0, 0, 0, 0) :=
  ⟨by norm_num [det2], C2_strain_roundtrip ⟨2, 1, 1, 1⟩ (by norm_num [det2])⟩

/-!  ## Strain map assembly (`strain_in_ROI`, nbed_strain.py lines 654-666)

After the scan loop, each per-component result vector (`e_xx_ROI`, …; one
`Option ℚ` per ROI scan point, `none` when disk fitting failed there) is
scattered into a NaN-initialised map with `e_xx_map[ROI] = e_xx_ROI`, NaNs
are replaced by zero, and the map is smoothed with
`scipy.ndimage.gaussian_filter(·, 1)`.  The smoothing is exact here: a
separable correlation with the normalised kernel `exp(−t²/2)`,
`t ∈ [−4, 4]` (radius `int(4.0·1 + 0.5) = 4`), in scipy's default
`reflect` boundary mode. -/

/-- Row-major enumeration of the scan grid, as `np.mgrid` rasterises it. -/
def roiOrder (Sy Sx : ℕ) : List (ℕ × ℕ) :=
  (List.range Sy).flatMap fun (y : ℕ) => (List.range Sx).map fun (x : ℕ) => (y, x)

/-- Position of pixel `p` within the True pixels of the mask, in row-major
order: NumPy boolean assignment `map[ROI] = vals` writes `vals[rank p]` at
`p`. -/
def roiRank (Sy Sx : ℕ) (roi : ℕ → ℕ → Bool) (p : ℕ × ℕ) : ℕ :=
  ((roiOrder Sy Sx).takeWhile fun q => decide (q ≠ p)).countP fun q =>
    roi q.1 q.2

/-- The strain map just before smoothing: NaN-initialised
(`np.nan * np.ones_like(scan_y)`), overwritten with the ROI values
(`e_map[ROI] = e_ROI`, line 654) and then zero-filled
(`e_map[np.isnan(e_map)] = 0`, line 655). -/
def preSmoothMap (Sy Sx : ℕ) (roi : ℕ → ℕ → Bool) (vals : List (Option ℚ))
    (i j : ℕ) : ℚ :=
  if roi i j then (vals.getD (roiRank Sy Sx roi (i, j)) none).getD 0 else 0

/-- Index folding of scipy's default `reflect` boundary mode
`(d c b a | a b c d | d c b a)` for an axis of length `n`. -/
def reflectIdx (n : ℕ) (z : ℤ) : ℕ :=
  let r := z % (2 * (n : ℤ))
  if r < (n : ℤ) then r.toNat else (2 * (n : ℤ) - 1 - r).toNat

noncomputable section

/-- Unnormalised Gaussian kernel weight `exp(−t²/2)` of
`scipy.ndimage.gaussian_filter` at `sigma = 1`. -/
def gaussWeight (t : ℤ) : ℝ := Real.exp (-((t : ℝ)) ^ 2 / 2)

/-- Normalisation constant of the truncated Gaussian kernel (radius 4 at
`sigma = 1`, `truncate = 4.0`). -/
def gaussZ : ℝ := ∑ t ∈ Finset.Icc (-4 : ℤ) 4, gaussWeight t

/-- One-dimensional correlation with the normalised truncated Gaussian
kernel in `reflect` mode, as `scipy.ndimage.gaussian_filter1d` computes at
`sigma = 1`. -/
def smooth1D (n : ℕ) (f : ℕ → ℝ) (i : ℕ) : ℝ :=
  (∑ t ∈ Finset.Icc (-4 : ℤ) 4,
    gaussWeight t * f (reflectIdx n ((i : ℤ) + t))) / gaussZ

/-- `scipy.ndimage.gaussian_filter(·, 1)` on a 2D map: the separable 1D
filter applied along axis 0 and then along axis 1. -/
def gaussSmooth2D (Sy Sx : ℕ) (f : ℕ → ℕ → ℝ) (i j : ℕ) : ℝ :=
  smooth1D Sx (fun x => smooth1D Sy (fun y => f y x) i) j

/-- One pixel of a final strain map of `strain_in_ROI` (lines 654-656 for
`e_xx`, identically for the other three components): scatter the ROI values,
zero-fill the NaNs, Gaussian-smooth with sigma 1. -/
def strainMapPoint (Sy Sx : ℕ) (roi : ℕ → ℕ → Bool) (vals : List (Option ℚ))
    (i j : ℕ) : ℝ :=
  gaussSmooth2D Sy Sx (fun y x => ((preSmoothMap Sy Sx roi vals y x : ℚ) : ℝ))
    i j

end

/-- Gaussian kernel weights are strictly positive. -/
theorem gaussWeight_pos (t : ℤ) : 0 < gaussWeight t := Real.exp_pos _

/-- The kernel normalisation constant is strictly positive. -/
theorem gaussZ_pos : 0 < gaussZ := by
  unfold gaussZ
  refine Finset.sum_pos (fun t _ => gaussWeight_pos t) ?_
  exact ⟨0, by norm_num⟩

/-- The separable two-pass filter written as one double sum over the 9×9
window. -/
theorem gaussSmooth2D_formula (Sy Sx : ℕ) (f : ℕ → ℕ → ℝ) (i j : ℕ) :
    gaussSmooth2D Sy Sx f i j =
      (∑ s ∈ Finset.Icc (-4 : ℤ) 4, ∑ t ∈ Finset.Icc (-4 : ℤ) 4,
        gaussWeight s * gaussWeight t *
          f (reflectIdx Sy ((i : ℤ) + t)) (reflectIdx Sx ((j : ℤ) + s))) /
      (gaussZ * gaussZ) := by
  simp only [gaussSmooth2D, smooth1D]
  have h1 : ∀ s ∈ Finset.Icc (-4 : ℤ) 4,
      gaussWeight s * ((∑ t ∈ Finset.Icc (-4 : ℤ) 4,
        gaussWeight t * f (reflectIdx Sy ((i : ℤ) + t))
          (reflectIdx Sx ((j : ℤ) + s))) / gaussZ) =
      (∑ t ∈ Finset.Icc (-4 : ℤ) 4,
        gaussWeight s * gaussWeight t * f (reflectIdx Sy ((i : ℤ) + t))
          (reflectIdx Sx ((j : ℤ) + s))) / gaussZ := by
    intro s _
    rw [← mul_div_assoc, Finset.mul_sum]
    congr 1
    exact Finset.sum_congr rfl fun t _ => by ring
  rw [Finset.sum_congr rfl h1, ← Finset.sum_div, div_div]

/-- C6 (amended).  ROI support of the assembled strain maps: (a) before
smoothing, every pixel outside the ROI is exactly zero (no value outside the
mask pollutes the result before smoothing), and (b) after the sigma-1
Gaussian smoothing, a pixel all of whose 9×9 smoothing-window sources (under
reflect boundary handling) lie outside the ROI is still exactly zero.
Pixels outside the ROI but within 4 pixels of it are NOT zero in general
after smoothing — the blur leaks ROI values outward (see the
counterexample) — so the claim's "exactly zero at every pixel outside the
ROI after smoothing" is false, and all pixels are finite (not only the ROI
ones) once NaNs have been replaced by zero. -/
theorem C6_amended_roi_support (Sy Sx : ℕ) (roi : ℕ → ℕ → Bool)
    (vals : List (Option ℚ)) :
    (∀ (i j : ℕ), roi i j = false → preSmoothMap Sy Sx roi vals i j = 0) ∧
    (∀ (i j : ℕ), (∀ t ∈ Finset.Icc (-4 : ℤ) 4, ∀ s ∈ Finset.Icc (-4 : ℤ) 4,
        roi (reflectIdx Sy ((i : ℤ) + t)) (reflectIdx Sx ((j : ℤ) + s))
          = false) →
      strainMapPoint Sy Sx roi vals i j = 0) := by
  have hpre : ∀ (i j : ℕ), roi i j = false →
      preSmoothMap Sy Sx roi vals i j = 0 := by
    intro i j h
    simp [preSmoothMap, h]
  refine ⟨hpre, ?_⟩
  intro i j h
  unfold strainMapPoint
  rw [gaussSmooth2D_formula]
  rw [Finset.sum_eq_zero, zero_div]
  intro s hs
  refine Finset.sum_eq_zero fun t ht => ?_
  rw [hpre _ _ (h t ht s hs)]
  simp

/-- Witness for `C6_amended_roi_support` with an all-false ROI on a 1×1
grid. -/
theorem C6_witness :
    preSmoothMap 1 1 (fun _ _ => false) [] 0 0 = 0 ∧
      strainMapPoint 1 1 (fun _ _ => false) [] 0 0 = 0 :=
  ⟨(C6_amended_roi_support 1 1 (fun _ _ => false) []).1 0 0 rfl,
   (C6_amended_roi_support 1 1 (fun _ _ => false) []).2 0 0
     (fun _ _ _ _ => rfl)⟩

/-- On a length-1 axis the reflect folding always lands on index 0. -/
theorem reflectIdx_one (z : ℤ) : reflectIdx 1 z = 0 := by
  simp only [reflectIdx, Nat.cast_one, mul_one]
  have h2 : (0 : ℤ) ≤ z % 2 := Int.emod_nonneg z (by norm_num)
  have h2' : z % 2 < 2 := Int.emod_lt_of_pos z (by norm_num)
  rcases (by omega : z % 2 = 0 ∨ z % 2 = 1) with h | h <;> rw [h] <;> norm_num

/-- C6 (counterexample).  On a 1×2 scan grid whose ROI is only the left
pixel, with strain value 1 fitted there, the smoothed map is nonzero at the
right pixel, which lies outside the ROI — the sigma-1 Gaussian smoothing
leaks the ROI value outward, so the maps are not exactly zero at every
pixel outside the ROI. -/
theorem C6_counterexample :
    strainMapPoint 1 2 (fun _ x => decide (x = 0)) [some 1] 0 1 ≠ 0 := by
  have hnn : ∀ y x, (0 : ℚ) ≤
      preSmoothMap 1 2 (fun _ x => decide (x = 0)) [some 1] y x := by
    intro y x
    unfold preSmoothMap
    split
    · rcases Nat.eq_zero_or_pos
        (roiRank 1 2 (fun _ x => decide (x = 0)) (y, x)) with h0 | hp
      · rw [h0]
        norm_num
      · rw [List.getD_eq_default _ _ (by simpa using hp)]
        norm_num
    · exact le_refl 0
  have hval : preSmoothMap 1 2 (fun _ x => decide (x = 0)) [some 1] 0 0 = 1 := by
    norm_num [preSmoothMap, roiRank, roiOrder, List.range_succ,
      List.takeWhile]
  unfold strainMapPoint
  rw [gaussSmooth2D_formula]
  have hpos : 0 < ∑ s ∈ Finset.Icc (-4 : ℤ) 4, ∑ t ∈ Finset.Icc (-4 : ℤ) 4,
      gaussWeight s * gaussWeight t *
        ((preSmoothMap 1 2 (fun _ x => decide (x = 0)) [some 1]
          (reflectIdx 1 ((0 : ℕ) + t)) (reflectIdx 2 ((1 : ℕ) + s)) : ℚ) : ℝ) := by
    refine Finset.sum_pos' (fun s _ => Finset.sum_nonneg fun t _ => ?_) ?_
    · have h0 := hnn (reflectIdx 1 ((0 : ℕ) + t)) (reflectIdx 2 ((1 : ℕ) + s))
      have hc : (0 : ℝ) ≤ ((preSmoothMap 1 2 (fun _ x => decide (x = 0))
          [some 1] (reflectIdx 1 ((0 : ℕ) + t))
          (reflectIdx 2 ((1 : ℕ) + s)) : ℚ) : ℝ) := by exact_mod_cast h0
      exact mul_nonneg (mul_nonneg (le_of_lt (gaussWeight_pos s))
        (le_of_lt (gaussWeight_pos t))) hc
    · refine ⟨-1, by norm_num, Finset.sum_pos (fun t _ => ?_) ⟨0, by norm_num⟩⟩
      have hx : reflectIdx 2 (((1 : ℕ) : ℤ) + (-1 : ℤ)) = 0 := by
        norm_num [reflectIdx]
      rw [reflectIdx_one, hx, hval]
      rw [Rat.cast_one, mul_one]
      exact mul_pos (gaussWeight_pos (-1)) (gaussWeight_pos t)
  have hZZ : (0 : ℝ) < gaussZ * gaussZ := mul_pos gaussZ_pos gaussZ_pos
  exact ne_of_gt (div_pos hpos hZZ)

/-!  ## Fourier sub-pixel registration (`stemtools/util/fourier_reg.py`)

The engine is embedded over `ℂ`, with the floating point FFT calls
(`np.fft.fft2`, `np.fft.ifft2` — external primitives per the specification)
replaced by the exact discrete Fourier transforms they compute.  Shifts are
rationals (the code produces multiples of `1/usfac`), angles and magnitudes
are reals. -/

/-- The unit-modulus factor `exp(−2πik/n)` all DFT kernels are built from. -/
noncomputable def cexpFactor (n : ℕ) (k : ℤ) : ℂ :=
  Complex.exp (-2 * (Real.pi : ℂ) * Complex.I * (k : ℂ) / (n : ℂ))

/-- Signed FFT frequency of index `i` on an axis of length `n`.  This is both
the shift table `Nr = np.fft.ifftshift(np.arange(-fix(nr/2), ceil(nr/2)))`
of `dftregistration` (fourier_reg.py lines 259-260) and the kernel index
array `ifftshift(arange(n)) - floor(n/2)` of `dftups` (lines 165, 168). -/
def freqVal (n i : ℕ) : ℤ := (((i + n / 2) % n : ℕ) : ℤ) - ((n / 2 : ℕ) : ℤ)

/-- Row-major raster of all index pairs, the order in which
`np.ravel`/`np.mgrid` traverse an array. -/
def ravelPairs (m n : ℕ) : List (Fin m × Fin n) :=
  (List.finRange m).flatMap fun i => (List.finRange n).map fun j => (i, j)

open Classical in
/-- Embeds `first_max_index` (fourier_reg.py lines 35-67): the first index
pair, in row-major ravel order, at which the array attains its maximum;
`none` only on an empty array (where NumPy raises). -/
noncomputable def firstMaxIdx (m n : ℕ) (a : Fin m → Fin n → ℝ) :
    Option (Fin m × Fin n) :=
  (ravelPairs m n).find? fun p =>
    decide (∀ q ∈ ravelPairs m n, a q.1 q.2 ≤ a p.1 p.2)

/-- Rotation of an index by `k`, the index arithmetic underlying
`np.fft.fftshift` (`k = ⌈n/2⌉`) and `np.fft.ifftshift` (`k = ⌊n/2⌋`). -/
def rotIdx (n k : ℕ) (i : Fin n) : Fin n :=
  ⟨(i.val + k) % n, Nat.mod_lt _ i.pos⟩

/-- `np.fft.fftshift` on a 2D array. -/
def fftshift2 {m n : ℕ} (a : Fin m → Fin n → ℂ) : Fin m → Fin n → ℂ :=
  fun i j => a (rotIdx m ((m + 1) / 2) i) (rotIdx n ((n + 1) / 2) j)

/-- `np.fft.ifftshift` on a 2D array. -/
def ifftshift2 {m n : ℕ} (a : Fin m → Fin n → ℂ) : Fin m → Fin n → ℂ :=
  fun i j => a (rotIdx m (m / 2) i) (rotIdx n (n / 2) j)

/-- Exact 2D DFT: the mathematical content of `np.fft.fft2`
(`out[f,g] = Σ_{y,x} a[y,x]·exp(−2πi·f·y/m)·exp(−2πi·g·x/n)`). -/
noncomputable def fft2 {m n : ℕ} (a : Fin m → Fin n → ℂ) :
    Fin m → Fin n → ℂ :=
  fun f g => ∑ y : Fin m, ∑ x : Fin n,
    a y x * cexpFactor m (f.val * y.val) * cexpFactor n (g.val * x.val)

/-- Exact 2D inverse DFT: the mathematical content of `np.fft.ifft2`. -/
noncomputable def ifft2 {m n : ℕ} (a : Fin m → Fin n → ℂ) :
    Fin m → Fin n → ℂ :=
  fun y x => (1 / ((m : ℂ) * (n : ℂ))) * ∑ f : Fin m, ∑ g : Fin n,
    a f g * cexpFactor m (-(y.val * f.val : ℕ)) * cexpFactor n
      (-(x.val * g.val : ℕ))

/-- The matrix-multiply upsampled DFT `dftups` (fourier_reg.py lines
114-172): `out = kernr · input · kernc` with
`kernr[r,y] = exp(−2πi·(r−roff)·freqVal nr y/(nr·usfac))` and
`kernc[x,c] = exp(−2πi·freqVal nc x·(c−coff)/(nc·usfac))`.  The source
defaults `nor`/`noc` to the input shape when passed `0`; callers here always
pass the sizes explicitly.  Offsets are rationals, as the source takes
floats. -/
noncomputable def dftups {nr nc : ℕ} (a : Fin nr → Fin nc → ℂ)
    (nor noc usfac : ℕ) (roff coff : ℚ) : Fin nor → Fin noc → ℂ :=
  fun r c => ∑ y : Fin nr, ∑ x : Fin nc,
    Complex.exp (-2 * (Real.pi : ℂ) * Complex.I / ((nr : ℂ) * (usfac : ℂ)) *
        ((((r.val : ℚ) - roff : ℚ) : ℂ)) * ((freqVal nr y.val : ℤ) : ℂ)) *
      a y x *
      Complex.exp (-2 * (Real.pi : ℂ) * Complex.I / ((nc : ℂ) * (usfac : ℂ)) *
        ((freqVal nc x.val : ℤ) : ℂ) * (((c.val : ℚ) - coff : ℚ) : ℂ))

/-- Embedding of the input array, centred, into the `usfac`-times larger
array (the zero-padding step of the reference procedure that `dftups`
documents). -/
def centerEmbed {nr nc : ℕ} (usfac : ℕ) (a : Fin nr → Fin nc → ℂ) :
    Fin (nr * usfac) → Fin (nc * usfac) → ℂ :=
  fun Y X =>
    if h : nr * usfac / 2 - nr / 2 ≤ Y.val ∧
        Y.val < nr * usfac / 2 - nr / 2 + nr ∧
        nc * usfac / 2 - nc / 2 ≤ X.val ∧
        X.val < nc * usfac / 2 - nc / 2 + nc then
      a ⟨Y.val - (nr * usfac / 2 - nr / 2), by omega⟩
        ⟨X.val - (nc * usfac / 2 - nc / 2), by omega⟩
    else 0

/-- The zero-padding reference procedure described in the `dftups`
docstring and the specification: embed in an array `usfac` times larger per
dimension, inverse-fftshift it, take its FFT (the `(nor, noc)` window is
then read off this full upsampled spectrum). -/
noncomputable def zeroPadFFT {nr nc : ℕ} (usfac : ℕ)
    (a : Fin nr → Fin nc → ℂ) :
    Fin (nr * usfac) → Fin (nc * usfac) → ℂ :=
  fft2 (ifftshift2 (centerEmbed usfac a))

/-- The index `z mod n` as a `Fin n`. -/
def zmodIdx (n : ℕ) (h : 0 < n) (z : ℤ) : Fin n :=
  ⟨(z % (n : ℤ)).toNat, by
    have h1 : 0 ≤ z % (n : ℤ) := Int.emod_nonneg z (by exact_mod_cast h.ne')
    have h2 : z % (n : ℤ) < (n : ℤ) := Int.emod_lt_of_pos z (by exact_mod_cast h)
    omega⟩

/-- Where row `y` of the input lands inside the `ifftshift`ed centred
zero-padded array: index `freqVal n y mod (n·usfac)`, written with natural
number arithmetic. -/
def embIdx (n usfac : ℕ) (hu : 0 < usfac) (y : Fin n) : Fin (n * usfac) :=
  ⟨((y.val + n / 2) % n + (n * usfac - n / 2)) % (n * usfac),
   Nat.mod_lt _ (Nat.mul_pos y.pos hu)⟩

/-- Round half to even, the semantics of `np.round` on scalars. -/
def roundHalfEven (q : ℚ) : ℤ :=
  if q - ⌊q⌋ < 1 / 2 then ⌊q⌋
  else if 1 / 2 < q - ⌊q⌋ then ⌊q⌋ + 1
  else if Even ⌊q⌋ then ⌊q⌋ else ⌊q⌋ + 1

/-- `⌈1.5·u⌉`, the window size `np.ceil(usfac*1.5)` of the refinement stage
(fourier_reg.py line 298). -/
def ceil15 (u : ℕ) : ℕ := (3 * u + 1) / 2

/-- Embeds `fourier_pad` (fourier_reg.py lines 69-112): fftshift, locate the
spectrum centre with `first_max_index` of the magnitudes, re-embed into the
`(N, M)` output around the scaled centre, inverse fftshift, scale by
`prod(outsize/insize)`. -/
noncomputable def fourierPad {nr nc : ℕ} [NeZero nr] [NeZero nc]
    (imFT : Fin nr → Fin nc → ℂ) (N M : ℕ) : Fin N → Fin M → ℂ :=
  let ash := fftshift2 imFT
  let cin := (firstMaxIdx nr nc fun i j => Complex.abs (ash i j)).getD
    (⟨0, Nat.pos_of_ne_zero (NeZero.ne nr)⟩,
     ⟨0, Nat.pos_of_ne_zero (NeZero.ne nc)⟩)
  let cc1 : ℤ := ((cin.1.val * N) / nr : ℕ) - (cin.1.val : ℤ)
  let cc2 : ℤ := ((cin.2.val * M) / nc : ℕ) - (cin.2.val : ℤ)
  let out0 : Fin N → Fin M → ℂ := fun Y X =>
    if h : cc1 ≤ (Y.val : ℤ) ∧ (Y.val : ℤ) < cc1 + nr ∧
        cc2 ≤ (X.val : ℤ) ∧ (X.val : ℤ) < cc2 + nc then
      ash ⟨((Y.val : ℤ) - cc1).toNat, by omega⟩
        ⟨((X.val : ℤ) - cc2).toNat, by omega⟩
    else 0
  fun Y X => ifftshift2 out0 Y X * (((N * M : ℕ) : ℂ) / ((nr * nc : ℕ) : ℂ))

/-- The returned tuple of `dftregistration`: in source order `row_shift`,
`col_shift`, `phase_diff`, `error`, `registered_fft`. -/
structure RegResult (nr nc : ℕ) where
  rowShift : ℚ
  colShift : ℚ
  phaseDiff : ℝ
  error : ℝ
  registered : Fin nr → Fin nc → ℂ

/-- Full embedding of `dftregistration` (fourier_reg.py lines 174-326) over
exact complex arithmetic.  The three `usfac` branches (`0`, `1`, `> 1` with
the `> 2` matrix-multiply refinement inside) produce the shift estimates and
`CCmax`; the final section computes the normalised RMS error, the global
phase difference, and the phase-corrected FFT of `buf2ft`.  The `getD`
defaults of the argmax lookups are never taken (the scanned arrays are
nonempty). -/
noncomputable def dftregistration {nr nc : ℕ} [NeZero nr] [NeZero nc]
    (buf1ft buf2ft : Fin nr → Fin nc → ℂ) (usfac : ℕ) : RegResult nr nc :=
  let ftMult : Fin nr → Fin nc → ℂ :=
    fun i j => buf1ft i j * (starRingEnd ℂ) (buf2ft i j)
  let core : ℚ × ℚ × ℂ :=
    match usfac with
    | 0 => (0, 0, ∑ i : Fin nr, ∑ j : Fin nc, ftMult i j)
    | 1 =>
        let CC := ifft2 ftMult
        let p := (firstMaxIdx nr nc fun i j => Complex.abs (CC i j)).getD
          (⟨0, Nat.pos_of_ne_zero (NeZero.ne nr)⟩,
           ⟨0, Nat.pos_of_ne_zero (NeZero.ne nc)⟩)
        ((freqVal nr p.1.val : ℚ), (freqVal nc p.2.val : ℚ),
          CC p.1 p.2 * (nr : ℂ) * (nc : ℂ))
    | u + 2 =>
        let CC2 := ifft2 (fourierPad ftMult (2 * nr) (2 * nc))
        let p := (firstMaxIdx (2 * nr) (2 * nc)
            fun i j => Complex.abs (CC2 i j)).getD
          (⟨0, by have := Nat.pos_of_ne_zero (NeZero.ne nr); omega⟩,
           ⟨0, by have := Nat.pos_of_ne_zero (NeZero.ne nc); omega⟩)
        let CCmax2 := CC2 p.1 p.2 * (nr : ℂ) * (nc : ℂ)
        let rs2 : ℚ := (freqVal (2 * nr) p.1.val : ℚ) / 2
        let cs2 : ℚ := (freqVal (2 * nc) p.2.val : ℚ) / 2
        let refined : ℚ × ℚ × ℂ :=
          if 2 < u + 2 then
            let rs3 : ℚ := (roundHalfEven (rs2 * (u + 2)) : ℚ) / (u + 2)
            let cs3 : ℚ := (roundHalfEven (cs2 * (u + 2)) : ℚ) / (u + 2)
            let dsh : ℕ := ceil15 (u + 2) / 2
            let CC3 : Fin (ceil15 (u + 2)) → Fin (ceil15 (u + 2)) → ℂ :=
              fun r c => (starRingEnd ℂ) (dftups ftMult (ceil15 (u + 2))
                (ceil15 (u + 2)) (u + 2) ((dsh : ℚ) - rs3 * (u + 2))
                ((dsh : ℚ) - cs3 * (u + 2)) r c)
            match firstMaxIdx (ceil15 (u + 2)) (ceil15 (u + 2))
                (fun r c => Complex.abs (CC3 r c)) with
            | some q =>
                (rs3 + ((q.1.val : ℚ) - (dsh : ℚ)) / (u + 2),
                 cs3 + ((q.2.val : ℚ) - (dsh : ℚ)) / (u + 2),
                 CC3 q.1 q.2)
            | none => (rs3, cs3, CCmax2)
          else (rs2, cs2, CCmax2)
        (if nr = 1 then 0 else refined.1, if nc = 1 then 0 else refined.2.1,
          refined.2.2)
  let CCmax := core.2.2
  let rg00 : ℝ := ∑ i : Fin nr, ∑ j : Fin nc, Complex.abs (buf1ft i j) ^ 2
  let rf00 : ℝ := ∑ i : Fin nr, ∑ j : Fin nc, Complex.abs (buf2ft i j) ^ 2
  let err : ℝ := Real.sqrt |1 - Complex.abs CCmax ^ 2 / (rg00 * rf00)|
  let phi : ℝ := Complex.arg CCmax
  let registered : Fin nr → Fin nc → ℂ :=
    if 0 < usfac then
      fun i j =>
        let theta : ℝ := 2 * Real.pi * (-1) *
          (((core.1 * (freqVal nr i.val : ℚ) / (nr : ℚ) +
             core.2.1 * (freqVal nc j.val : ℚ) / (nc : ℚ)) : ℚ) : ℝ)
        buf2ft i j * Complex.exp (Complex.I * (theta : ℂ)) *
          Complex.exp (Complex.I * (phi : ℂ))
    else fun i j => buf2ft i j * Complex.exp (Complex.I * (phi : ℂ))
  ⟨core.1, core.2.1, phi, err, registered⟩

/-- The complex exponential of a purely imaginary argument has modulus 1. -/
theorem abs_exp_I_mul_real (t : ℝ) :
    Complex.abs (Complex.exp (Complex.I * (t : ℂ))) = 1 := by
  rw [Complex.abs_exp]
  have h : (Complex.I * (t : ℂ)).re = 0 := by simp [Complex.mul_re]
  rw [h, Real.exp_zero]

/-- On an axis of length 1 every frequency is zero. -/
theorem freqVal_one (i : ℕ) : freqVal 1 i = 0 := by
  simp [freqVal]

/-- C10.  For every pair of same-shape FFT inputs and every `usfac`, the
registered FFT returned by `dftregistration` has the same element-wise
magnitude as the FFT of the image being registered: registration only
multiplies `buf2ft` by the unit-modulus phase-ramp factor and the
unit-modulus global-phase factor. -/
theorem C10_registered_magnitude (nr nc : ℕ) [NeZero nr] [NeZero nc]
    (buf1ft buf2ft : Fin nr → Fin nc → ℂ) (usfac : ℕ)
    (i : Fin nr) (j : Fin nc) :
    Complex.abs ((dftregistration buf1ft buf2ft usfac).registered i j) =
      Complex.abs (buf2ft i j) := by
  by_cases h : 0 < usfac
  · show Complex.abs ((if 0 < usfac then _ else _ : Fin nr → Fin nc → ℂ) i j)
        = _
    rw [if_pos h]
    show Complex.abs (buf2ft i j * Complex.exp (Complex.I * _) *
      Complex.exp (Complex.I * _)) = _
    rw [map_mul, map_mul, abs_exp_I_mul_real, abs_exp_I_mul_real, mul_one,
      mul_one]
  · show Complex.abs ((if 0 < usfac then _ else _ : Fin nr → Fin nc → ℂ) i j)
        = _
    rw [if_neg h]
    show Complex.abs (buf2ft i j * Complex.exp (Complex.I * _)) = _
    rw [map_mul, abs_exp_I_mul_real, mul_one]

/-- C7.  Degenerate axes force a zero shift whenever shift estimation is
performed (`usfac ≥ 1`): with a single row the returned `rowShift` is 0
(for `usfac = 1` because the only row frequency on a length-1 axis is 0;
for `usfac > 1` because of the explicit final zeroing at fourier_reg.py
lines 309-312), and symmetrically a single column forces `colShift = 0`. -/
theorem C7_degenerate_axis_shift :
    (∀ (nc : ℕ) [NeZero nc] (b1 b2 : Fin 1 → Fin nc → ℂ) (usfac : ℕ),
      1 ≤ usfac → (dftregistration b1 b2 usfac).rowShift = 0) ∧
    (∀ (nr : ℕ) [NeZero nr] (b1 b2 : Fin nr → Fin 1 → ℂ) (usfac : ℕ),
      1 ≤ usfac → (dftregistration b1 b2 usfac).colShift = 0) := by
  constructor
  · intro nc _ b1 b2 usfac hu
    match usfac, hu with
    | 1, _ => simp [dftregistration, freqVal_one]
    | (u + 2), _ => simp [dftregistration]
  · intro nr _ b1 b2 usfac hu
    match usfac, hu with
    | 1, _ => simp [dftregistration, freqVal_one]
    | (u + 2), _ => simp [dftregistration]

/-- Witness for `C7_degenerate_axis_shift` on concrete 1×2 and 2×1 inputs at
`usfac = 1`. -/
theorem C7_witness :
    (1 ≤ 1 ∧ (dftregistration (fun _ _ => (0 : ℂ)) (fun _ _ => (0 : ℂ)) 1 :
      RegResult 1 2).rowShift = 0) ∧
    (1 ≤ 1 ∧ (dftregistration (fun _ _ => (0 : ℂ)) (fun _ _ => (0 : ℂ)) 1 :
      RegResult 2 1).colShift = 0) :=
  ⟨⟨le_refl 1, C7_degenerate_axis_shift.1 2 _ _ 1 (le_refl 1)⟩,
   ⟨le_refl 1, C7_degenerate_axis_shift.2 2 _ _ 1 (le_refl 1)⟩⟩

/-- The DFT kernel factor only depends on the exponent index modulo the
transform length. -/
theorem cexpFactor_congr (N : ℕ) (hN : 0 < N) {a b : ℤ}
    (h : a ≡ b [ZMOD (N : ℤ)]) : cexpFactor N a = cexpFactor N b := by
  obtain ⟨k, hk⟩ := (Int.modEq_iff_dvd.mp h)
  have hNne : (N : ℂ) ≠ 0 := by exact_mod_cast hN.ne'
  have hb : (b : ℂ) = (a : ℂ) + (N : ℂ) * (k : ℂ) := by
    have : b = a + N * k := by omega
    exact_mod_cast congrArg (fun z : ℤ => (z : ℂ)) this
  unfold cexpFactor
  rw [hb]
  rw [show -2 * (Real.pi : ℂ) * Complex.I * ((a : ℂ) + (N : ℂ) * (k : ℂ)) /
        (N : ℂ) =
      -2 * (Real.pi : ℂ) * Complex.I * (a : ℂ) / (N : ℂ) +
        (-k : ℤ) * (2 * (Real.pi : ℂ) * Complex.I) from by
    push_cast
    field_simp
    ring]
  rw [Complex.exp_add, Complex.exp_int_mul_two_pi_mul_I, mul_one]

/-- Cancelling a common rotation: indices with equal rotated values are
equal. -/
theorem rotVal_inj (n k : ℕ) {a b : Fin n}
    (h : (a.val + k) % n = (b.val + k) % n) : a = b := by
  have h2 : a.val % n = b.val % n :=
    Nat.ModEq.add_right_cancel' k h
  rw [Nat.mod_eq_of_lt a.isLt, Nat.mod_eq_of_lt b.isLt] at h2
  exact Fin.ext h2

/-- Core index computation: rotating the embedded index by `⌊N/2⌋` lands in
the centred window, at offset `τ` inside it. -/
theorem emb_rot_general (n N : ℕ) (hn : 0 < n) (hnN : n ≤ N) (t : ℕ)
    (ht : t < n) :
    ((t + (N - n / 2)) % N + N / 2) % N = (N / 2 - n / 2) + t := by
  have hN : 0 < N := lt_of_lt_of_le hn hnN
  have hdiv : n / 2 ≤ N / 2 := Nat.div_le_div_right hnN
  rw [Nat.mod_add_mod]
  rw [show t + (N - n / 2) + N / 2 = ((N / 2 - n / 2) + t) + N by omega]
  rw [Nat.add_mod_right]
  exact Nat.mod_eq_of_lt (by omega)

/-- Rotating `embIdx` by `⌊N/2⌋` gives the window offset of the source
row. -/
theorem rot_embIdx_val (n usfac : ℕ) (hu : 0 < usfac) (y : Fin n) :
    ((embIdx n usfac hu y).val + n * usfac / 2) % (n * usfac) =
      (n * usfac / 2 - n / 2) + (y.val + n / 2) % n := by
  have hn := y.pos
  have h := emb_rot_general n (n * usfac) hn
    (Nat.le_mul_of_pos_right n hu) ((y.val + n / 2) % n) (Nat.mod_lt _ hn)
  simpa [embIdx] using h

/-- The two half-rotations of `fftshift` and `ifftshift` cancel. -/
theorem tau_sigma (n : ℕ) (i : ℕ) (hi : i < n) :
    ((i + (n + 1) / 2) % n + n / 2) % n = i := by
  rw [Nat.mod_add_mod]
  rw [show i + (n + 1) / 2 + n / 2 = i + n by omega]
  rw [Nat.add_mod_right]
  exact Nat.mod_eq_of_lt hi

/-- The two half-rotations cancel in the other order as well. -/
theorem sigma_tau (n : ℕ) (y : ℕ) (hy : y < n) :
    ((y + n / 2) % n + (n + 1) / 2) % n = y := by
  rw [Nat.mod_add_mod]
  rw [show y + n / 2 + (n + 1) / 2 = y + n by omega]
  rw [Nat.add_mod_right]
  exact Nat.mod_eq_of_lt hy

/-- The embedding is injective: distinct rows land at distinct pad
indices. -/
theorem embIdx_inj (n usfac : ℕ) (hu : 0 < usfac) :
    Function.Injective (embIdx n usfac hu) := by
  intro a b h
  have h1 := rot_embIdx_val n usfac hu a
  have h2 := rot_embIdx_val n usfac hu b
  rw [h] at h1
  have hτ : (a.val + n / 2) % n = (b.val + n / 2) % n := by omega
  exact rotVal_inj n (n / 2) hτ

/-- Value of the `ifftshift`ed centred embedding of the `fftshift`ed input
at an embedded index pair: the original entry. -/
theorem padArray_embIdx (nr nc usfac : ℕ) (hu : 0 < usfac)
    (a : Fin nr → Fin nc → ℂ) (y : Fin nr) (x : Fin nc) :
    ifftshift2 (centerEmbed usfac (fftshift2 a))
      (embIdx nr usfac hu y) (embIdx nc usfac hu x) = a y x := by
  have hn := y.pos
  have hcn := x.pos
  have hr := rot_embIdx_val nr usfac hu y
  have hc := rot_embIdx_val nc usfac hu x
  have hτr : (y.val + nr / 2) % nr < nr := Nat.mod_lt _ hn
  have hτc : (x.val + nc / 2) % nc < nc := Nat.mod_lt _ hcn
  show centerEmbed usfac (fftshift2 a)
    (rotIdx (nr * usfac) (nr * usfac / 2) (embIdx nr usfac hu y))
    (rotIdx (nc * usfac) (nc * usfac / 2) (embIdx nc usfac hu x)) = a y x
  have hvr : (rotIdx (nr * usfac) (nr * usfac / 2)
      (embIdx nr usfac hu y)).val =
      (nr * usfac / 2 - nr / 2) + (y.val + nr / 2) % nr := hr
  have hvc : (rotIdx (nc * usfac) (nc * usfac / 2)
      (embIdx nc usfac hu x)).val =
      (nc * usfac / 2 - nc / 2) + (x.val + nc / 2) % nc := hc
  unfold centerEmbed
  rw [dif_pos (by omega)]
  show fftshift2 a ⟨_, _⟩ ⟨_, _⟩ = a y x
  unfold fftshift2 rotIdx
  have hyy : ((rotIdx (nr * usfac) (nr * usfac / 2)
        (embIdx nr usfac hu y)).val - (nr * usfac / 2 - nr / 2) +
      (nr + 1) / 2) % nr = y.val := by
    rw [hvr, Nat.add_sub_cancel_left]
    exact sigma_tau nr y.val y.isLt
  have hxx : ((rotIdx (nc * usfac) (nc * usfac / 2)
        (embIdx nc usfac hu x)).val - (nc * usfac / 2 - nc / 2) +
      (nc + 1) / 2) % nc = x.val := by
    rw [hvc, Nat.add_sub_cancel_left]
    exact sigma_tau nc x.val x.isLt
  refine congr (congrArg a (Fin.ext ?_)) (Fin.ext ?_)
  · exact hyy
  · exact hxx

/-- Away from the embedded index pairs the padded array vanishes. -/
theorem padArray_eq_zero (nr nc usfac : ℕ) (hu : 0 < usfac)
    (a : Fin nr → Fin nc → ℂ) (Y : Fin (nr * usfac)) (X : Fin (nc * usfac))
    (h : ∀ (y : Fin nr) (x : Fin nc),
      ¬(Y = embIdx nr usfac hu y ∧ X = embIdx nc usfac hu x)) :
    ifftshift2 (centerEmbed usfac (fftshift2 a)) Y X = 0 := by
  show centerEmbed usfac (fftshift2 a)
    (rotIdx (nr * usfac) (nr * usfac / 2) Y)
    (rotIdx (nc * usfac) (nc * usfac / 2) X) = 0
  unfold centerEmbed
  split
  case isFalse => rfl
  case isTrue hcond =>
    exfalso
    obtain ⟨h1, h2, h3, h4⟩ := hcond
    set R := (rotIdx (nr * usfac) (nr * usfac / 2) Y).val with hR
    set C := (rotIdx (nc * usfac) (nc * usfac / 2) X).val with hC
    have hn : 0 < nr := by omega
    have hcn : 0 < nc := by omega
    have hiy : R - (nr * usfac / 2 - nr / 2) < nr := by omega
    have hix : C - (nc * usfac / 2 - nc / 2) < nc := by omega
    set y0 : Fin nr := ⟨(R - (nr * usfac / 2 - nr / 2) + (nr + 1) / 2) % nr,
      Nat.mod_lt _ hn⟩ with hy0
    set x0 : Fin nc := ⟨(C - (nc * usfac / 2 - nc / 2) + (nc + 1) / 2) % nc,
      Nat.mod_lt _ hcn⟩ with hx0
    apply h y0 x0
    constructor
    · apply rotVal_inj (nr * usfac) (nr * usfac / 2)
      rw [show (Y.val + nr * usfac / 2) % (nr * usfac) = R from rfl]
      rw [rot_embIdx_val nr usfac hu y0]
      have : (y0.val + nr / 2) % nr = R - (nr * usfac / 2 - nr / 2) := by
        rw [hy0]
        exact tau_sigma nr _ hiy
      omega
    · apply rotVal_inj (nc * usfac) (nc * usfac / 2)
      rw [show (X.val + nc * usfac / 2) % (nc * usfac) = C from rfl]
      rw [rot_embIdx_val nc usfac hu x0]
      have : (x0.val + nc / 2) % nc = C - (nc * usfac / 2 - nc / 2) := by
        rw [hx0]
        exact tau_sigma nc _ hix
      omega

/-- The integer value of `zmodIdx` is the representative `z mod n`. -/
theorem zmodIdx_val_int (n : ℕ) (h : 0 < n) (z : ℤ) :
    ((zmodIdx n h z).val : ℤ) = z % (n : ℤ) :=
  Int.toNat_of_nonneg (Int.emod_nonneg z (by exact_mod_cast h.ne'))

/-- The pad index of row `y` is congruent to its signed frequency modulo the
padded length. -/
theorem embIdx_val_modEq (n usfac : ℕ) (hu : 0 < usfac) (y : Fin n) :
    ((embIdx n usfac hu y).val : ℤ) ≡ freqVal n y.val
      [ZMOD ((n * usfac : ℕ) : ℤ)] := by
  have hn := y.pos
  have hle : n / 2 ≤ n * usfac := le_trans (Nat.div_le_self n 2)
    (Nat.le_mul_of_pos_right n hu)
  unfold embIdx freqVal
  show ((((y.val + n / 2) % n + (n * usfac - n / 2)) % (n * usfac) : ℕ) : ℤ)
    ≡ _ [ZMOD _]
  rw [Int.natCast_mod]
  have step1 : (((y.val + n / 2) % n + (n * usfac - n / 2) : ℕ) : ℤ) %
      ((n * usfac : ℕ) : ℤ) ≡
      (((y.val + n / 2) % n + (n * usfac - n / 2) : ℕ) : ℤ)
      [ZMOD ((n * usfac : ℕ) : ℤ)] := Int.emod_emod_of_dvd _ dvd_rfl
  refine step1.trans ?_
  rw [Int.modEq_iff_dvd]
  push_cast [Nat.cast_sub hle]
  exact ⟨-1, by ring⟩

/-- The window frequency index `zmodIdx ((r − roff) mod N)` is congruent to
`r − roff`. -/
theorem zmodIdx_modEq (n : ℕ) (h : 0 < n) (z : ℤ) :
    ((zmodIdx n h z).val : ℤ) ≡ z [ZMOD (n : ℤ)] := by
  rw [zmodIdx_val_int]
  exact Int.emod_emod_of_dvd _ dvd_rfl

/-- The zero-padded FFT of the `fftshift`ed input, restricted to its support:
a double sum over the original array with the embedded kernel indices. -/
theorem zeroPadFFT_fftshift_sum (nr nc usfac : ℕ) (hu : 0 < usfac)
    (a : Fin nr → Fin nc → ℂ) (f : Fin (nr * usfac)) (g : Fin (nc * usfac)) :
    zeroPadFFT usfac (fftshift2 a) f g =
      ∑ y : Fin nr, ∑ x : Fin nc,
        a y x *
          cexpFactor (nr * usfac) (f.val * (embIdx nr usfac hu y).val) *
          cexpFactor (nc * usfac) (g.val * (embIdx nc usfac hu x).val) := by
  unfold zeroPadFFT fft2
  rw [← Finset.sum_product', ← Finset.sum_product']
  rw [show ((Finset.univ : Finset (Fin (nr * usfac))) ×ˢ
      (Finset.univ : Finset (Fin (nc * usfac)))) = Finset.univ from
    Finset.univ_product_univ]
  rw [show ((Finset.univ : Finset (Fin nr)) ×ˢ
      (Finset.univ : Finset (Fin nc))) = Finset.univ from
    Finset.univ_product_univ]
  have hinj : ∀ p₁ ∈ (Finset.univ : Finset (Fin nr × Fin nc)),
      ∀ p₂ ∈ (Finset.univ : Finset (Fin nr × Fin nc)),
      (fun q : Fin nr × Fin nc =>
        (embIdx nr usfac hu q.1, embIdx nc usfac hu q.2)) p₁ =
      (fun q : Fin nr × Fin nc =>
        (embIdx nr usfac hu q.1, embIdx nc usfac hu q.2)) p₂ → p₁ = p₂ := by
    intro p₁ _ p₂ _ hpq
    have h1 := congrArg Prod.fst hpq
    have h2 := congrArg Prod.snd hpq
    exact Prod.ext (embIdx_inj nr usfac hu h1) (embIdx_inj nc usfac hu h2)
  have hvan : ∀ p ∈ (Finset.univ :
      Finset (Fin (nr * usfac) × Fin (nc * usfac))),
      p ∉ Finset.univ.image (fun q : Fin nr × Fin nc =>
        (embIdx nr usfac hu q.1, embIdx nc usfac hu q.2)) →
      ifftshift2 (centerEmbed usfac (fftshift2 a)) p.1 p.2 *
        cexpFactor (nr * usfac) (f.val * p.1.val) *
        cexpFactor (nc * usfac) (g.val * p.2.val) = 0 := by
    intro p _ hnot
    have hB : ifftshift2 (centerEmbed usfac (fftshift2 a)) p.1 p.2 = 0 := by
      apply padArray_eq_zero nr nc usfac hu a p.1 p.2
      intro y x hcontra
      apply hnot
      rw [Finset.mem_image]
      exact ⟨(y, x), Finset.mem_univ _,
        (Prod.ext hcontra.1.symm hcontra.2.symm)⟩
    rw [hB, zero_mul, zero_mul]
  rw [← Finset.sum_subset (Finset.subset_univ _) hvan]
  rw [Finset.sum_image hinj]
  refine Finset.sum_congr rfl fun q _ => ?_
  show ifftshift2 (centerEmbed usfac (fftshift2 a))
      (embIdx nr usfac hu q.1) (embIdx nc usfac hu q.2) *
      cexpFactor (nr * usfac) (f.val * (embIdx nr usfac hu q.1).val) *
      cexpFactor (nc * usfac) (g.val * (embIdx nc usfac hu q.2).val) = _
  rw [padArray_embIdx nr nc usfac hu a q.1 q.2]

/-- At integer offsets the `dftups` kernels are the `cexpFactor`s of the
products `(r−roff)·freqVal` and `freqVal·(c−coff)`. -/
theorem dftups_int_offsets (nr nc : ℕ) (a : Fin nr → Fin nc → ℂ)
    (nor noc usfac : ℕ) (roff coff : ℤ) (r : Fin nor) (c : Fin noc) :
    dftups a nor noc usfac ((roff : ℤ) : ℚ) ((coff : ℤ) : ℚ) r c =
      ∑ y : Fin nr, ∑ x : Fin nc,
        cexpFactor (nr * usfac) (((r.val : ℤ) - roff) * freqVal nr y.val) *
          a y x *
          cexpFactor (nc * usfac) (freqVal nc x.val * ((c.val : ℤ) - coff)) := by
  unfold dftups cexpFactor
  refine Finset.sum_congr rfl fun y _ => Finset.sum_congr rfl fun x _ => ?_
  have hA : -2 * (Real.pi : ℂ) * Complex.I / ((nr : ℂ) * (usfac : ℂ)) *
      ((((r.val : ℚ) - ((roff : ℤ) : ℚ) : ℚ)) : ℂ) *
      ((freqVal nr y.val : ℤ) : ℂ) =
      -2 * (Real.pi : ℂ) * Complex.I *
        ((((r.val : ℤ) - roff) * freqVal nr y.val : ℤ) : ℂ) /
        (((nr * usfac : ℕ) : ℕ) : ℂ) := by
    push_cast
    ring
  have hB : -2 * (Real.pi : ℂ) * Complex.I / ((nc : ℂ) * (usfac : ℂ)) *
      ((freqVal nc x.val : ℤ) : ℂ) *
      ((((c.val : ℚ) - ((coff : ℤ) : ℚ) : ℚ)) : ℂ) =
      -2 * (Real.pi : ℂ) * Complex.I *
        ((freqVal nc x.val * ((c.val : ℤ) - coff) : ℤ) : ℂ) /
        (((nc * usfac : ℕ) : ℕ) : ℂ) := by
    push_cast
    ring
  rw [hA, hB]

/-- C8 (amended).  `dftups` agrees with the zero-padding procedure once two
details of the docstring are fixed: the array embedded centrally must be the
`fftshift` of the input (the input arrives with DC at `[0,0]`), and the
`(nor, noc)` output window is read at frequency indices
`(r − roff) mod (nr·usfac)` and `(c − coff) mod (nc·usfac)` — the offsets
shift the window in the negative direction, not "starting at element
`(roff, coff)`".  With those corrections the matrix-multiply implementation
is extensionally equal to the zero-padded FFT on the whole evaluated
window, for every window size, every upsampling factor `usfac ≥ 1` and all
integer offsets. -/
theorem C8_amended_dftups (nr nc nor noc usfac : ℕ) (hu : 0 < usfac)
    (a : Fin nr → Fin nc → ℂ) (roff coff : ℤ) (r : Fin nor) (c : Fin noc)
    (hr : 0 < nr) (hc : 0 < nc) :
    dftups a nor noc usfac ((roff : ℤ) : ℚ) ((coff : ℤ) : ℚ) r c =
      zeroPadFFT usfac (fftshift2 a)
        (zmodIdx (nr * usfac) (Nat.mul_pos hr hu) ((r.val : ℤ) - roff))
        (zmodIdx (nc * usfac) (Nat.mul_pos hc hu) ((c.val : ℤ) - coff)) := by
  rw [dftups_int_offsets nr nc a nor noc usfac roff coff r c]
  rw [zeroPadFFT_fftshift_sum nr nc usfac hu a]
  refine Finset.sum_congr rfl fun y _ => Finset.sum_congr rfl fun x _ => ?_
  have h1 : cexpFactor (nr * usfac)
      ((zmodIdx (nr * usfac) (Nat.mul_pos hr hu)
        ((r.val : ℤ) - roff)).val * (embIdx nr usfac hu y).val) =
      cexpFactor (nr * usfac) (((r.val : ℤ) - roff) * freqVal nr y.val) := by
    apply cexpFactor_congr _ (Nat.mul_pos hr hu)
    exact Int.ModEq.mul (zmodIdx_modEq _ (Nat.mul_pos hr hu) _)
      (embIdx_val_modEq nr usfac hu y)
  have h2 : cexpFactor (nc * usfac)
      ((zmodIdx (nc * usfac) (Nat.mul_pos hc hu)
        ((c.val : ℤ) - coff)).val * (embIdx nc usfac hu x).val) =
      cexpFactor (nc * usfac) (freqVal nc x.val * ((c.val : ℤ) - coff)) := by
    apply cexpFactor_congr _ (Nat.mul_pos hc hu)
    have hm := Int.ModEq.mul (zmodIdx_modEq _ (Nat.mul_pos hc hu)
      ((c.val : ℤ) - coff)) (embIdx_val_modEq nc usfac hu x)
    rw [mul_comm (freqVal nc x.val) ((c.val : ℤ) - coff)]
    exact hm
  rw [h1, h2]
  ring

/-- The DFT kernel factor at exponent zero is 1. -/
theorem cexpFactor_zero (n : ℕ) : cexpFactor n 0 = 1 := by
  unfold cexpFactor
  simp

/-- The half-turn kernel factor: `exp(−2πi·1/2) = −1`. -/
theorem cexpFactor_two_one : cexpFactor 2 1 = -1 := by
  unfold cexpFactor
  rw [show -2 * (Real.pi : ℂ) * Complex.I * ((1 : ℤ) : ℂ) / ((2 : ℕ) : ℂ) =
      -((Real.pi : ℂ) * Complex.I) from by push_cast; ring]
  rw [Complex.exp_neg, Complex.exp_pi_mul_I]
  norm_num

/-- C8 (counterexample).  Taken literally — embed the input itself centrally
in the `usfac`-times larger array, inverse-fftshift, FFT, and extract the
window starting at element `(roff, coff)` — the zero-padding description
disagrees with `dftups`: already at `usfac = 1`, `roff = coff = 0` on the
2×1 input `(1, 0)ᵀ`, the window element `(1, 0)` is `1` under `dftups` but
`−1` under the described procedure (the embedding must be of the
`fftshift`ed input). -/
theorem C8_counterexample :
    dftups (fun (y : Fin 2) (_ : Fin 1) => if y.val = 0 then (1 : ℂ) else 0)
        2 1 1 0 0 ⟨1, by norm_num⟩ ⟨0, by norm_num⟩ ≠
      zeroPadFFT 1
        (fun (y : Fin 2) (_ : Fin 1) => if y.val = 0 then (1 : ℂ) else 0)
        (zmodIdx (2 * 1) (by norm_num) ((0 : ℤ) + ((1 : ℕ) : ℤ)))
        (zmodIdx (1 * 1) (by norm_num) ((0 : ℤ) + ((0 : ℕ) : ℤ))) := by
  have hL : dftups
      (fun (y : Fin 2) (_ : Fin 1) => if y.val = 0 then (1 : ℂ) else 0)
      2 1 1 0 0 ⟨1, by norm_num⟩ ⟨0, by norm_num⟩ = 1 := by
    simp [dftups, freqVal, Fin.sum_univ_two, Fin.sum_univ_one]
  have hR : zeroPadFFT 1
      (fun (y : Fin 2) (_ : Fin 1) => if y.val = 0 then (1 : ℂ) else 0)
      (zmodIdx (2 * 1) (by norm_num) ((0 : ℤ) + ((1 : ℕ) : ℤ)))
      (zmodIdx (1 * 1) (by norm_num) ((0 : ℤ) + ((0 : ℕ) : ℤ))) = -1 := by
    simp [zeroPadFFT, fft2, ifftshift2, centerEmbed, rotIdx, zmodIdx,
      Fin.sum_univ_two, Fin.sum_univ_one, cexpFactor_zero, cexpFactor_two_one]
  rw [hL, hR]
  norm_num

/-- Witness for `C8_amended_dftups` on a constant 1×1 input at
`usfac = 1`. -/
theorem C8_witness :
    (0 : ℕ) < 1 ∧
      dftups (fun (_ : Fin 1) (_ : Fin 1) => (2 : ℂ)) 1 1 1 ((0 : ℤ) : ℚ)
          ((0 : ℤ) : ℚ) 0 0 =
        zeroPadFFT 1 (fftshift2 fun (_ : Fin 1) (_ : Fin 1) => (2 : ℂ))
          (zmodIdx (1 * 1) (by norm_num) (((0 : Fin 1).val : ℤ) - 0))
          (zmodIdx (1 * 1) (by norm_num) (((0 : Fin 1).val : ℤ) - 0)) :=
  ⟨by norm_num,
   C8_amended_dftups 1 1 1 1 1 (by norm_num) (fun _ _ => (2 : ℂ)) 0 0 0 0
     (by norm_num) (by norm_num)⟩

/-- Witness for `C10_registered_magnitude` on concrete 1×1 inputs. -/
theorem C10_witness :
    Complex.abs ((dftregistration (fun _ _ => (3 : ℂ)) (fun _ _ => (4 : ℂ))
      0 : RegResult 1 1).registered 0 0) = Complex.abs (4 : ℂ) :=
  C10_registered_magnitude 1 1 (fun _ _ => (3 : ℂ)) (fun _ _ => (4 : ℂ)) 0 0 0

end Stemtool
